import Mathlib

/-!
Verification of the govbot vote counter's reconciliation-and-tally pipeline.

The definitions below are a shallow embedding of the Python sources:
`src/gqa/graphql_query_aggregator.py` (chain reconciler) and
`src/vote_counter/vote_counter.py` (vote tally engine and memo codec).
Python ints are modelled as `Int`/`Nat`, millisecond timestamps as `Int`,
JSON dictionaries as structures whose possibly-absent keys are `Option`
fields, raised exceptions as `Except`/`Option` results, and Python's
stable `sorted` as `List.insertionSort` with a suitable total preorder.
-/

namespace GovBot

/-- Transaction dictionary as returned in `transactions.userCommands`.
Each field is `Option`al because JSON objects may lack keys; the Python
code checks presence with `field not in tx`. The Python keys `to` and
`from` are spelled `toAddr` and `sender` here because both are Lean
keywords. -/
structure RawTx where
  id : Option String
  toAddr : Option String
  sender : Option String
  amount : Option String
  fee : Option String
  memo : Option String
  nonce : Option Int
  kind : Option String
deriving DecidableEq, Repr

/-- Block dictionary: `blockHeight` is
`int(block["protocolState"]["consensusState"]["blockHeight"])`, `date` is
`int(block["protocolState"]["blockchainState"]["date"])` in milliseconds,
and `userCommands` is `block["transactions"]["userCommands"]`. -/
structure Block where
  blockHeight : Int
  date : Int
  userCommands : List RawTx
deriving DecidableEq, Repr

/-- Response dictionary handed to `_get_transactions_from_response`.
`execution_timestamp` is `Option`al: the code reads it with
`r.get("execution_timestamp", "")`, and the dictionaries produced by
`json.loads` of the stored `response` column contain only the GraphQL
result (key `bestChain`), so the key is absent on the pipeline path. -/
structure Response where
  execution_timestamp : Option String
  bestChain : List Block
deriving DecidableEq, Repr

/-- Transaction annotated with its block's timestamp
(`tx["blockDate"] = block_timestamp`). -/
structure TxA where
  tx : RawTx
  blockDate : Int
deriving DecidableEq, Repr

/-- Code-point comparison of strings as character lists, mirroring
Python's lexicographic `str` ordering used by `sorted`. -/
def charListLe : List Char → List Char → Bool
  | [], _ => true
  | _ :: _, [] => false
  | a :: as, b :: bs => if a < b then true else if b < a then false else charListLe as bs

/-- Sort key of a response: `r.get("execution_timestamp", "")`. -/
def respKey (r : Response) : String := r.execution_timestamp.getD ""

/-- Relation realizing `sorted(responses, key=..., reverse=True)`:
`a` precedes `b` when `a`'s key is at least `b`'s key. -/
def respGe (a b : Response) : Prop := charListLe (respKey b).toList (respKey a).toList = true

instance : DecidableRel respGe := fun a b =>
  inferInstanceAs (Decidable (charListLe (respKey b).toList (respKey a).toList = true))

/-- Python `sorted(responses, key=lambda r: r.get("execution_timestamp", ""), reverse=True)`:
a stable descending sort by key. `List.insertionSort` with `respGe` is
stable in the same way CPython's sort is. -/
def sortResponsesDesc (rs : List Response) : List Response :=
  List.insertionSort respGe rs

/-- Collect blocks from all responses in the given order, keeping only the
first version seen of each height (`if block_height not in all_blocks`);
the Python dict preserves insertion order, modelled by appending. -/
def collectBlocks (rs : List Response) : List Block :=
  rs.foldl (fun acc r =>
    r.bestChain.foldl (fun a b =>
      if a.any (fun x => x.blockHeight == b.blockHeight) then a else a ++ [b]) acc) []

/-- Relation for `sorted(all_blocks.values(), key=lambda b: int(...blockHeight))`. -/
def heightLe (a b : Block) : Prop := a.blockHeight ≤ b.blockHeight

instance : DecidableRel heightLe := fun a b =>
  inferInstanceAs (Decidable (a.blockHeight ≤ b.blockHeight))

instance : IsTotal Block heightLe := ⟨fun a b => Int.le_total a.blockHeight b.blockHeight⟩

instance : IsTrans Block heightLe := ⟨fun _ _ _ h1 h2 => le_trans h1 h2⟩

/-- Deduplicated blocks of the recency-sorted responses, sorted by height
ascending (`sorted_blocks` in the source). -/
def sorted_blocks (rs : List Response) : List Block :=
  List.insertionSort heightLe (collectBlocks (sortResponsesDesc rs))

/-- Contiguity validation loop: for each adjacent pair check
`curr_height == prev_height + 1`, raising `BlockDiscontinuityError` with the
offending pair `(prev_height, curr_height)` at the first violation. -/
def checkContiguity : List Block → Except (Int × Int) Unit
  | [] => Except.ok ()
  | [_] => Except.ok ()
  | b1 :: b2 :: rest =>
    if b2.blockHeight ≠ b1.blockHeight + 1 then Except.error (b1.blockHeight, b2.blockHeight)
    else checkContiguity (b2 :: rest)

/-- Reorg-margin trim `sorted_blocks[:-k] if k > 0 else sorted_blocks`;
Python's `l[:-k]` is `take (length - k)` and yields `[]` when `k ≥ length`. -/
def trimRecent (bs : List Block) (k : Int) : List Block :=
  if 0 < k then bs.take (bs.length - k.toNat) else bs

/-- Time-window scan: for each block with
`start_ms <= block_timestamp <= end_ms` (both inclusive), emit its
`userCommands` annotated with the block timestamp. -/
def emitWindow (startMs endMs : Int) : List Block → List TxA
  | [] => []
  | b :: bs =>
    (if startMs ≤ b.date ∧ b.date ≤ endMs
      then b.userCommands.map (fun t => ⟨t, b.date⟩) else [])
      ++ emitWindow startMs endMs bs

/-- `GraphQLQueryAggregator._get_transactions_from_response`: sort and
deduplicate snapshots, sort by height, validate contiguity (hard stop on
failure), trim the reorg margin, and emit in-window transactions. -/
def get_transactions_from_response (rs : List Response) (startMs endMs k : Int) :
    Except (Int × Int) (List TxA) :=
  match checkContiguity (sorted_blocks rs) with
  | Except.error e => Except.error e
  | Except.ok _ => Except.ok (emitWindow startMs endMs (trimRecent (sorted_blocks rs) k))

/-- Stored row of the `graphql_responses` table as used by
`retrieve_combined_transactions`: the `execution_timestamp` column and the
parsed `response` JSON (whose only key used is `bestChain`). -/
structure DBRow where
  execution_timestamp : String
  bestChain : List Block
deriving DecidableEq, Repr

/-- Parsing the stored `response` column: the stored JSON is
`json.dumps(result)` of the GraphQL result, which has no
`execution_timestamp` key, hence `none`. -/
def rowToResponse (r : DBRow) : Response := ⟨none, r.bestChain⟩

/-- Row ordering of the SQL `ORDER BY execution_timestamp` (ascending). -/
def rowLe (a b : DBRow) : Prop :=
  charListLe a.execution_timestamp.toList b.execution_timestamp.toList = true

instance : DecidableRel rowLe := fun a b =>
  inferInstanceAs (Decidable (charListLe a.execution_timestamp.toList b.execution_timestamp.toList = true))

/-- `GraphQLQueryAggregator.retrieve_combined_transactions`: rows are
selected ordered by `execution_timestamp` ascending, their `response`
columns parsed, and passed to `_get_transactions_from_response`. -/
def retrieve_combined_transactions (rows : List DBRow) (startMs endMs k : Int) :
    Except (Int × Int) (List TxA) :=
  get_transactions_from_response
    ((List.insertionSort rowLe rows).map rowToResponse) startMs endMs k

/-- Adjacency relation of the contiguity check. -/
def contigRel (a b : Block) : Prop := b.blockHeight = a.blockHeight + 1

instance : DecidableRel contigRel := fun a b =>
  inferInstanceAs (Decidable (b.blockHeight = a.blockHeight + 1))

/-- Concrete input for exercising the discontinuity path: a single
snapshot containing blocks at heights 1 and 3. -/
def rsGap : List Response :=
  [⟨some "2024-01-01", [⟨1, 10, []⟩, ⟨3, 30, []⟩]⟩]

/-- Concrete input for the margin trim: one snapshot with contiguous
blocks at heights 1, 2 and 3. -/
def rsTrim : List Response :=
  [⟨some "2024-01-01", [⟨1, 10, []⟩, ⟨2, 20, []⟩, ⟨3, 30, []⟩]⟩]

/-- Transaction present only in the older snapshot's version of block 100. -/
def txOld : RawTx :=
  ⟨some "t-old", some "B1", some "alice", some "1", some "0", some "m", some 1, some "PAYMENT"⟩

/-- Transaction present only in the newer snapshot's version of block 100. -/
def txNew : RawTx :=
  ⟨some "t-new", some "B1", some "bob", some "1", some "0", some "m", some 2, some "PAYMENT"⟩

/-- Snapshot retrieved earlier: block at height 100 with timestamp 5. -/
def rowOld : DBRow := ⟨"2024-01-01T00:00:00", [⟨100, 5, [txOld]⟩]⟩

/-- Snapshot retrieved later: height 100 again, timestamp 7, other content. -/
def rowNew : DBRow := ⟨"2024-01-02T00:00:00", [⟨100, 7, [txNew]⟩]⟩

/-- External decoding primitives used by `decode_memo`:
`base58.b58decode_check` (returns the checksum-stripped bytes or raises,
modelled as `Option`) and `bytes.decode("utf-8")` (modelled as `Option`).
Both live in libraries outside this repository, so they are abstracted as
function parameters. -/
structure Codec where
  b58decodeCheck : String → Option (List Nat)
  utf8Decode : List Nat → Option String

/-- `VoteCountingPipeline.decode_memo`: Base58Check-decode the memo, check
the version byte `0x14` (`decoded[0]`, an `IndexError` on empty input),
read the length byte `decoded[2]` (`IndexError` when too short), slice
`decoded[3 : 3 + length]` and UTF-8 decode it. Every failure path is
caught by the surrounding `except` and yields `""`. -/
def decode_memo (c : Codec) (memo : String) : String :=
  match c.b58decodeCheck memo with
  | none => ""
  | some d =>
    match d.head? with
    | none => ""
    | some b0 =>
      if b0 ≠ 0x14 then ""
      else
        match d[2]? with
        | none => ""
        | some len =>
          match c.utf8Decode ((d.drop 3).take len) with
          | none => ""
          | some msg => msg

/-- Python whitespace for `str.split()` with no separator: space, tab,
newline, carriage return, vertical tab, form feed. Python also splits on
the rarer Unicode whitespace characters (U+00A0, U+0085, ...); this model
is the ASCII fragment and agrees with the source on strings that contain
none of those. -/
def pyIsSpace (ch : Char) : Bool :=
  ch == ' ' || ch == '\t' || ch == '\n' || ch == '\r' ||
    ch == Char.ofNat 11 || ch == Char.ofNat 12

/-- Worker for `str.split()`: accumulate a token (in reverse) and cut at
whitespace runs, discarding empty tokens. -/
def splitWsAux : List Char → List Char → List String
  | [], cur => if cur.isEmpty then [] else [String.mk cur.reverse]
  | ch :: rest, cur =>
    if pyIsSpace ch then
      if cur.isEmpty then splitWsAux rest []
      else String.mk cur.reverse :: splitWsAux rest []
    else splitWsAux rest (ch :: cur)

/-- Python `str.split()` with no arguments. -/
def splitWs (s : String) : List String := splitWsAux s.toList []

/-- Character class of Python's `str.isdigit`: the Unicode digit
property. Beyond the ASCII decimal digits it also holds of digit
characters that carry no decimal value and that `int()` therefore
rejects; the superscripts `¹` (U+00B9), `²` (U+00B2) and `³` (U+00B3)
are the standard examples and are the ones this model carries. On
strings over ASCII and these three characters the function agrees with
`str.isdigit` exactly. -/
def pyCharIsDigit (ch : Char) : Bool :=
  ch.isDigit || ch == '¹' || ch == '²' || ch == '³'

/-- Python `str.isdigit()`: non-empty and every character has the digit
property. -/
def pyIsDigitStr (s : String) : Bool :=
  !s.toList.isEmpty && s.toList.all pyCharIsDigit

/-- Vote-format check on a decoded memo message
(`len(parts) == 2 and parts[0] in ("yes", "no") and parts[1].isdigit()`). -/
def is_valid_message (m : String) : Bool :=
  decide ((splitWs m).length = 2) &&
    ((decide ((splitWs m).getD 0 "" = "yes") || decide ((splitWs m).getD 0 "" = "no")) &&
      pyIsDigitStr ((splitWs m).getD 1 ""))

/-- `VoteCountingPipeline.is_valid_memo`: decode, then validate the format. -/
def is_valid_memo (c : Codec) (memo : String) : Bool :=
  is_valid_message (decode_memo c memo)

/-- Numeric value of a decimal digit string. -/
def digitsToNat (l : List Char) : Nat := l.foldl (fun n ch => 10 * n + (ch.toNat - 48)) 0

/-- Python `int(s)` on a whitespace-free token: an optional sign followed
by at least one decimal digit, otherwise a `ValueError` (`none`). Python
also parses non-ASCII decimal digits (category Nd) and underscore-grouped
literals; this model is the ASCII-digit fragment, which agrees with the
source on tokens over ASCII and the superscript digit characters (the
superscripts have the digit property but no decimal value, so `int()`
rejects them, as does this model). -/
def pyInt? (s : String) : Option Int :=
  match s.toList with
  | [] => none
  | ch :: rest =>
    if ch = '+' then
      if !rest.isEmpty && rest.all Char.isDigit then some (digitsToNat rest : Int) else none
    else if ch = '-' then
      if !rest.isEmpty && rest.all Char.isDigit then some (-(digitsToNat rest : Int)) else none
    else if (ch :: rest).all Char.isDigit then some (digitsToNat (ch :: rest) : Int) else none

/-- Tally key of a project-id token: `str(int(project_id_str))` in
`count_votes`, `none` when `int` would raise. -/
def pidKey (s : String) : Option String := (pyInt? s).map (fun i => toString i)

/-- Concrete codec: a fixed Base58Check preimage decoding to version byte
`0x14`, length 2 and payload bytes for `"hi"`. -/
def demoCodec : Codec :=
  ⟨fun m => if m = "MEMO" then some [0x14, 0, 2, 104, 105, 0] else none,
   fun bs => if bs = [104, 105] then some "hi" else none⟩

/-- Concrete codec whose only memo decodes to the message `"yes 007"`. -/
def demoCodec6 : Codec :=
  ⟨fun m => if m = "M6" then some [0x14, 0, 7, 121, 101, 115, 32, 48, 48, 55] else none,
   fun bs => if bs = [121, 101, 115, 32, 48, 48, 55] then some "yes 007" else none⟩

/-- Codec whose memo `"MS"` Base58Check-decodes to version byte `0x14`,
length 6, and the UTF-8 bytes of `"yes ²"` (superscript two U+00B2 is
`0xC2 0xB2`). -/
def demoCodecSup : Codec :=
  ⟨fun m => if m = "MS" then some [0x14, 0, 6, 121, 101, 115, 32, 194, 178] else none,
   fun bs => if bs = [121, 101, 115, 32, 194, 178] then some "yes ²" else none⟩

/-- Burn-address payment carrying the superscript memo, inside the window. -/
def supTxA : TxA :=
  ⟨⟨some "i", some "BURN", some "al", some "1", some "0", some "MS", some 1,
    some "PAYMENT"⟩, 10⟩

/-- `VoteCountingPipeline.REQUIRED_TX_FIELDS`. -/
def REQUIRED_TX_FIELDS : List String :=
  ["id", "to", "from", "amount", "fee", "memo", "nonce", "kind"]

/-- Presence test `field in tx` for the transaction dictionary. -/
def hasField (t : RawTx) (f : String) : Bool :=
  if f = "id" then t.id.isSome
  else if f = "to" then t.toAddr.isSome
  else if f = "from" then t.sender.isSome
  else if f = "amount" then t.amount.isSome
  else if f = "fee" then t.fee.isSome
  else if f = "memo" then t.memo.isSome
  else if f = "nonce" then t.nonce.isSome
  else if f = "kind" then t.kind.isSome
  else false

/-- `VoteCountingPipeline.__ensure_required_fields`: loop over
`REQUIRED_TX_FIELDS` and fail (warn and drop) at any absent field. -/
def ensure_required_fields (t : RawTx) : Bool :=
  REQUIRED_TX_FIELDS.all (hasField t)

/-- Transaction-collecting loop of `VoteCountingPipeline.get_transactions`:
blocks in chain order; user commands failing the required-field check are
skipped with a warning (`continue`), the rest are annotated with the
block's timestamp and appended. -/
def get_transactions : List Block → List TxA
  | [] => []
  | b :: bs =>
    (b.userCommands.filter ensure_required_fields).map (fun t => ⟨t, b.date⟩)
      ++ get_transactions bs

/-- Filtered vote transaction built in `filter_transactions`: `id`,
`from`, `amount` (the `Decimal` argument is kept as its source string),
the decoded memo message, and `nonce`. -/
structure FTx where
  id : String
  sender : String
  amount : String
  memo : String
  nonce : Int
deriving DecidableEq, Repr

/-- One iteration of the `filter_transactions` loop. The outer `Option`
is `none` when the Python body would raise (`KeyError` on a field accessed
without a presence check), `some none` when the transaction is skipped,
and `some (some f)` when it is kept as `f`. The evaluation order follows
the source: presence of `to`, `to == BURN_ADDRESS`, the inclusive time
window, `kind == "PAYMENT"`, memo validity, then the field reads of the
kept record. -/
def filterOne (c : Codec) (burn : String) (startMs endMs : Int) (t : TxA) :
    Option (Option FTx) :=
  match t.tx.toAddr with
  | none => some none
  | some toA =>
    if toA = burn then
      if startMs ≤ t.blockDate ∧ t.blockDate ≤ endMs then
        match t.tx.kind with
        | none => none
        | some kind =>
          if kind = "PAYMENT" then
            match t.tx.memo with
            | none => none
            | some memo =>
              if is_valid_memo c memo then
                match t.tx.id, t.tx.sender, t.tx.amount, t.tx.nonce with
                | some i, some fr, some am, some n =>
                  some (some ⟨i, fr, am, decode_memo c memo, n⟩)
                | _, _, _, _ => none
              else some none
          else some none
      else some none
    else some none

/-- `VoteCountingPipeline.filter_transactions`: process the transactions
in order, aborting on a raising iteration and collecting kept records. -/
def filter_transactions (c : Codec) (burn : String) (startMs endMs : Int) :
    List TxA → Option (List FTx)
  | [] => some []
  | t :: ts =>
    match filterOne c burn startMs endMs t with
    | none => none
    | some none => filter_transactions c burn startMs endMs ts
    | some (some f) => (filter_transactions c burn startMs endMs ts).map (fun l => f :: l)

/-- Keys of the `defaultdict(list)` grouping by `tx["from"]` in
`sequence_transactions`, in first-appearance order. -/
def accountKeys (txs : List FTx) : List String :=
  txs.foldl (fun ks t => if t.sender ∈ ks then ks else ks ++ [t.sender]) []

/-- Ordering of `sorted(txs, key=lambda x: x["nonce"])`. -/
def nonceLe (a b : FTx) : Prop := a.nonce ≤ b.nonce

instance : DecidableRel nonceLe := fun a b =>
  inferInstanceAs (Decidable (a.nonce ≤ b.nonce))

instance : IsTotal FTx nonceLe := ⟨fun a b => Int.le_total a.nonce b.nonce⟩

instance : IsTrans FTx nonceLe := ⟨fun _ _ _ h1 h2 => le_trans h1 h2⟩

/-- Concatenation of the per-account nonce-sorted groups in key order;
each group holds the account's transactions in input order, stably sorted
by nonce. -/
def seqGroups (txs : List FTx) : List String → List FTx
  | [] => []
  | a :: ks =>
    List.insertionSort nonceLe (txs.filter (fun t => decide (t.sender = a)))
      ++ seqGroups txs ks

/-- `VoteCountingPipeline.sequence_transactions`. -/
def sequence_transactions (txs : List FTx) : List FTx :=
  seqGroups txs (accountKeys txs)

/-- Insertion-ordered association-list model of a Python `dict`:
assignment `m[k] = v` updates the existing entry in place or appends. -/
def updD (m : List (String × String)) (k v : String) : List (String × String) :=
  match m with
  | [] => [(k, v)]
  | (k', v') :: rest => if k' = k then (k, v) :: rest else (k', v') :: updD rest k v

/-- Two-level update `latest_votes[project_id][account] = vote` on the
`defaultdict(dict)` of `count_votes`. -/
def updLatest (m : List (String × List (String × String))) (pid a v : String) :
    List (String × List (String × String)) :=
  match m with
  | [] => [(pid, [(a, v)])]
  | (p, inner) :: rest =>
    if p = pid then (p, updD inner a v) :: rest else (p, inner) :: updLatest rest pid a v

/-- Memo unpacking `vote, project_id_str = tx["memo"].split()` of
`count_votes`; `none` when the two-element unpacking would raise. -/
def voteParts (m : String) : Option (String × String) :=
  match splitWs m with
  | [v, p] => some (v, p)
  | _ => none

/-- First pass of `count_votes`: fold the transactions into
`latest_votes`, overwriting the `(project, account)` entry at each vote;
`none` when memo unpacking or `int(project_id_str)` raises. -/
def buildLatestAux (acc : List (String × List (String × String))) :
    List FTx → Option (List (String × List (String × String)))
  | [] => some acc
  | t :: ts =>
    match voteParts t.memo with
    | none => none
    | some (v, pstr) =>
      match pidKey pstr with
      | none => none
      | some pid => buildLatestAux (updLatest acc pid t.sender v) ts

/-- One vote direction of the output: `{"count": ..., "addresses": [...]}`. -/
structure VoteSet where
  count : Nat
  addresses : List String
deriving DecidableEq, Repr

/-- Output entry per project: `{"yes_votes": ..., "no_votes": ...}`. -/
structure ProjectVotes where
  yes_votes : VoteSet
  no_votes : VoteSet
deriving DecidableEq, Repr

/-- Second pass of `count_votes`: partition a project's accounts by final
vote; the Python `set` of addresses is modelled as the insertion-ordered
list of the (unique) account keys, and `count` is its cardinality. -/
def materializeVotes (votes : List (String × String)) : ProjectVotes :=
  ⟨⟨((votes.filter (fun av => decide (av.2 = "yes"))).map (fun av => av.1)).length,
    (votes.filter (fun av => decide (av.2 = "yes"))).map (fun av => av.1)⟩,
   ⟨((votes.filter (fun av => decide (av.2 = "no"))).map (fun av => av.1)).length,
    (votes.filter (fun av => decide (av.2 = "no"))).map (fun av => av.1)⟩⟩

/-- `VoteCountingPipeline.count_votes`. -/
def count_votes (txs : List FTx) : Option (List (String × ProjectVotes)) :=
  (buildLatestAux [] txs).map (fun lv => lv.map (fun pv => (pv.1, materializeVotes pv.2)))

/-- Project tally key of a transaction as used by `count_votes`
(`str(int(project_id_str))`). -/
def txPid (t : FTx) : Option String :=
  (voteParts t.memo).bind (fun vp => pidKey vp.2)

/-- Vote token of a transaction's decoded memo. -/
def txVote (t : FTx) : Option String := (voteParts t.memo).map (fun vp => vp.1)

/-- Chain with one complete transaction and one lacking `nonce`. -/
def goodTx : RawTx :=
  ⟨some "g", some "B1", some "alice", some "1", some "0", some "m", some 3, some "PAYMENT"⟩

/-- Transaction with the `nonce` field absent. -/
def badTx : RawTx :=
  ⟨some "b", some "B1", some "bob", some "1", some "0", some "m", none, some "PAYMENT"⟩

/-- One-block chain holding both transactions. -/
def chain9 : List Block := [⟨1, 50, [goodTx, badTx]⟩]

/-- Payment to the burn address with a valid memo, timestamped exactly at
the window's start bound. -/
def winTxA : TxA :=
  ⟨⟨some "i", some "BURN", some "al", some "1", some "0", some "M6", some 1,
    some "PAYMENT"⟩, 10⟩

/-- Lookup in an insertion-ordered association list (first match). -/
def alookup {β : Type} : List (String × β) → String → Option β
  | [], _ => none
  | (k, v) :: rest, k' => if k = k' then some v else alookup rest k'

/-- Lookup of `latest_votes[pid][a]`. -/
def lvlookup (m : List (String × List (String × String))) (pid a : String) :
    Option String :=
  match alookup m pid with
  | none => none
  | some votes => alookup votes a

/-- Key list of an association list. -/
def keys {β : Type} (m : List (String × β)) : List String := m.map Prod.fst

/-- Well-formedness of the two-level `latest_votes` map: unique project
keys and unique account keys per project (as a Python dict has). -/
def LVWf (m : List (String × List (String × String))) : Prop :=
  (keys m).Nodup ∧ ∀ p ∈ m, (keys p.2).Nodup

/-- Final value of the `(pid, a)` cell after folding the transactions in
order starting from `init`: the last matching transaction's vote wins. -/
def lastChoice (init : Option String) (txs : List FTx) (pid a : String) : Option String :=
  txs.foldl (fun r t => if t.sender = a ∧ txPid t = some pid then txVote t else r) init

/-- Last element of a list as a left fold. -/
def lastD {α : Type} (l : List α) : Option α := l.foldl (fun _ t => some t) none

/-- Two voters on project 1: `alice` votes yes, `bob` votes no. -/
def ftxAlice : FTx := ⟨"t1", "alice", "1", "yes 1", 1⟩

/-- Second demo vote transaction. -/
def ftxBob : FTx := ⟨"t2", "bob", "1", "no 1", 1⟩

/-- Demo transaction list for the tally. -/
def demoTally : List FTx := [ftxAlice, ftxBob]

/-- Nonce-sorted transactions of sender `a` for project `pid`: the
subsequence of the sequenced stream that writes the `(pid, a)` cell. -/
def senderFilterSorted (txs : List FTx) (pid a : String) : List FTx :=
  (List.insertionSort nonceLe (txs.filter (fun t => decide (t.sender = a)))).filter
    (fun t => decide (txPid t = some pid))

/-- Demo sender flipping the vote on project 1: nonce 1 yes, nonce 2 no. -/
def ftxFlip1 : FTx := ⟨"f1", "carol", "1", "yes 1", 1⟩

/-- Second flip transaction. -/
def ftxFlip2 : FTx := ⟨"f2", "carol", "1", "no 1", 2⟩

/-- Demo transaction list with a vote flip. -/
def demoFlip : List FTx := [ftxFlip1, ftxFlip2]

/-! ### Theorems -/

lemma checkContiguity_ok_iff (bs : List Block) :
    checkContiguity bs = Except.ok () ↔ List.Chain' contigRel bs := by
  induction bs with
  | nil => simp [checkContiguity]
  | cons b1 rest ih =>
    cases rest with
    | nil => simp [checkContiguity]
    | cons b2 rest' =>
      rw [checkContiguity, List.chain'_cons]
      by_cases h : b2.blockHeight ≠ b1.blockHeight + 1
      · simp only [if_pos h]
        constructor
        · intro hc; cases hc
        · rintro ⟨hr, -⟩; exact absurd hr h
      · simp only [if_neg h]
        push_neg at h
        rw [ih]
        exact ⟨fun hc => ⟨h, hc⟩, fun hc => hc.2⟩

lemma checkContiguity_error (bs : List Block) (p c : Int)
    (h : checkContiguity bs = Except.error (p, c)) :
    c ≠ p + 1 ∧ ∃ l₁ l₂ b₁ b₂, bs = l₁ ++ b₁ :: b₂ :: l₂ ∧
      b₁.blockHeight = p ∧ b₂.blockHeight = c := by
  induction bs with
  | nil => simp [checkContiguity] at h
  | cons b1 rest ih =>
    cases rest with
    | nil => simp [checkContiguity] at h
    | cons b2 rest' =>
      rw [checkContiguity] at h
      by_cases hv : b2.blockHeight ≠ b1.blockHeight + 1
      · rw [if_pos hv] at h
        injection h with h'
        have hp : b1.blockHeight = p := congrArg Prod.fst h'
        have hc : b2.blockHeight = c := congrArg Prod.snd h'
        refine ⟨by rw [← hp, ← hc]; exact hv, [], rest', b1, b2, rfl, hp, hc⟩
      · rw [if_neg hv] at h
        obtain ⟨hne, l₁, l₂, b₁, b₂, hdec, hp, hc⟩ := ih h
        exact ⟨hne, b1 :: l₁, l₂, b₁, b₂, by rw [List.cons_append, hdec], hp, hc⟩

lemma sorted_blocks_sorted (rs : List Response) :
    List.Sorted heightLe (sorted_blocks rs) :=
  List.sorted_insertionSort heightLe _

lemma gtfr_ok_of_contig (rs : List Response) (s e k : Int)
    (h : checkContiguity (sorted_blocks rs) = Except.ok ()) :
    get_transactions_from_response rs s e k =
      Except.ok (emitWindow s e (trimRecent (sorted_blocks rs) k)) := by
  unfold get_transactions_from_response
  rw [h]

lemma gtfr_error_iff (rs : List Response) (s e k : Int) (p c : Int) :
    get_transactions_from_response rs s e k = Except.error (p, c) ↔
      checkContiguity (sorted_blocks rs) = Except.error (p, c) := by
  unfold get_transactions_from_response
  rcases h : checkContiguity (sorted_blocks rs) with e' | u
  · constructor
    · intro hh
      injection hh with hh'
      rw [hh']
    · intro hh
      injection hh with hh'
      rw [hh']
  · constructor
    · intro hh; exact Except.noConfusion hh
    · intro hh; exact Except.noConfusion hh

/-- Claim C1: after height-deduplication and ascending height sort, any
adjacent pair whose heights do not differ by exactly 1 makes reconciliation
fail with a `BlockDiscontinuityError` naming the offending height pair and
no transaction list is returned; when every adjacent pair differs by
exactly 1 (in particular when there are fewer than two blocks) no error is
raised and a transaction list is produced. -/
theorem reconcile_discontinuity (rs : List Response) (s e k : Int) :
    ((∃ out, get_transactions_from_response rs s e k = Except.ok out) ↔
      List.Chain' contigRel (sorted_blocks rs))
    ∧ (∀ p c, get_transactions_from_response rs s e k = Except.error (p, c) →
        c ≠ p + 1 ∧ ∃ l₁ l₂ b₁ b₂, sorted_blocks rs = l₁ ++ b₁ :: b₂ :: l₂ ∧
          b₁.blockHeight = p ∧ b₂.blockHeight = c) := by
  constructor
  · constructor
    · rintro ⟨out, hout⟩
      unfold get_transactions_from_response at hout
      rcases h : checkContiguity (sorted_blocks rs) with e' | u
      · rw [h] at hout; exact Except.noConfusion hout
      · cases u; exact (checkContiguity_ok_iff _).mp h
    · intro hch
      exact ⟨_, gtfr_ok_of_contig rs s e k ((checkContiguity_ok_iff _).mpr hch)⟩
  · intro p c hpc
    exact checkContiguity_error _ p c ((gtfr_error_iff rs s e k p c).mp hpc)

theorem reconcile_discontinuity_witness :
    (3 : Int) ≠ 1 + 1 ∧ ∃ l₁ l₂ b₁ b₂, sorted_blocks rsGap = l₁ ++ b₁ :: b₂ :: l₂ ∧
      b₁.blockHeight = 1 ∧ b₂.blockHeight = 3 :=
  (reconcile_discontinuity rsGap 0 100 0).2 1 3 rfl

/-- Claim C7: when the margin `k` is positive, exactly the trailing
`min k len` blocks (the highest by height, since the sequence is
height-sorted) are removed from tally consideration; when `k ≤ 0` all
blocks are kept; the contiguity check runs over the full deduplicated
sequence, so its outcome does not depend on `k`; and the emitted
transactions come from the trimmed sequence only. -/
theorem reorg_margin_trim (rs : List Response) (s e k : Int) :
    (k ≤ 0 → trimRecent (sorted_blocks rs) k = sorted_blocks rs)
    ∧ (0 < k → ∃ dropped,
        sorted_blocks rs = trimRecent (sorted_blocks rs) k ++ dropped
        ∧ dropped.length = min k.toNat (sorted_blocks rs).length
        ∧ (trimRecent (sorted_blocks rs) k).length = (sorted_blocks rs).length - k.toNat
        ∧ ∀ x ∈ trimRecent (sorted_blocks rs) k, ∀ y ∈ dropped,
            x.blockHeight ≤ y.blockHeight)
    ∧ (∀ p c, get_transactions_from_response rs s e k = Except.error (p, c) ↔
        get_transactions_from_response rs s e 0 = Except.error (p, c))
    ∧ (∀ out, get_transactions_from_response rs s e k = Except.ok out →
        out = emitWindow s e (trimRecent (sorted_blocks rs) k)) := by
  refine ⟨?_, ?_, ?_, ?_⟩
  · intro hk
    unfold trimRecent
    rw [if_neg (by omega)]
  · intro hk
    have htr : trimRecent (sorted_blocks rs) k =
        (sorted_blocks rs).take ((sorted_blocks rs).length - k.toNat) := by
      unfold trimRecent; rw [if_pos hk]
    refine ⟨(sorted_blocks rs).drop ((sorted_blocks rs).length - k.toNat), ?_, ?_, ?_, ?_⟩
    · rw [htr, List.take_append_drop]
    · rw [List.length_drop]; omega
    · rw [htr, List.length_take]; omega
    · intro x hx y hy
      rw [htr] at hx
      have hs := sorted_blocks_sorted rs
      have hp : List.Pairwise heightLe
          ((sorted_blocks rs).take ((sorted_blocks rs).length - k.toNat) ++
            (sorted_blocks rs).drop ((sorted_blocks rs).length - k.toNat)) := by
        rw [List.take_append_drop]; exact hs
      exact (List.pairwise_append.mp hp).2.2 x hx y hy
  · intro p c
    rw [gtfr_error_iff, gtfr_error_iff]
  · intro out hout
    unfold get_transactions_from_response at hout
    rcases h : checkContiguity (sorted_blocks rs) with e' | u
    · rw [h] at hout; exact Except.noConfusion hout
    · rw [h] at hout; injection hout with h'; rw [h']

theorem reorg_margin_trim_witness :
    ∃ dropped, sorted_blocks rsTrim = trimRecent (sorted_blocks rsTrim) 2 ++ dropped
      ∧ dropped.length = min (2 : Int).toNat (sorted_blocks rsTrim).length
      ∧ (trimRecent (sorted_blocks rsTrim) 2).length =
          (sorted_blocks rsTrim).length - (2 : Int).toNat
      ∧ ∀ x ∈ trimRecent (sorted_blocks rsTrim) 2, ∀ y ∈ dropped,
          x.blockHeight ≤ y.blockHeight :=
  (reorg_margin_trim rsTrim 0 100 2).2.1 (by decide)

/-- Claim C10: an empty snapshot collection reconciles to the empty
transaction list, and for a contiguous deduplicated sequence a positive
margin at least as large as the number of distinct heights leaves no block,
so reconciliation returns the empty transaction list without error. -/
theorem margin_exceeding_chain (rs : List Response) (s e k : Int) :
    (rs = [] → get_transactions_from_response rs s e k = Except.ok [])
    ∧ (List.Chain' contigRel (sorted_blocks rs) → 0 < k →
        (sorted_blocks rs).length ≤ k.toNat →
        get_transactions_from_response rs s e k = Except.ok []) := by
  constructor
  · intro h
    subst h
    have h1 : sorted_blocks ([] : List Response) = [] := rfl
    rw [gtfr_ok_of_contig [] s e k (by rw [h1]; rfl)]
    have h2 : trimRecent (sorted_blocks ([] : List Response)) k = [] := by
      rw [h1]; unfold trimRecent; split <;> simp
    rw [h2]
    rfl
  · intro hch hk hlen
    rw [gtfr_ok_of_contig rs s e k ((checkContiguity_ok_iff _).mpr hch)]
    have h2 : trimRecent (sorted_blocks rs) k = [] := by
      unfold trimRecent
      rw [if_pos hk]
      have : (sorted_blocks rs).length - k.toNat = 0 := by omega
      rw [this, List.take_zero]
    rw [h2]
    rfl

theorem margin_exceeding_chain_witness :
    get_transactions_from_response rsTrim 0 100 5 = Except.ok [] :=
  (margin_exceeding_chain rsTrim 0 100 5).2
    ((checkContiguity_ok_iff (sorted_blocks rsTrim)).mp rfl) (by decide) (by decide)

/-- Claim C3 is violated by the code: although `rowNew` was retrieved
strictly later than `rowOld`, the reconciled output contains the OLDER
snapshot's version of height 100 (transaction `txOld`, block timestamp 5)
instead of the newer one, whichever order the rows are supplied in. -/
theorem dedup_keeps_oldest_snapshot :
    rowLe rowOld rowNew ∧ ¬ rowLe rowNew rowOld
    ∧ retrieve_combined_transactions [rowOld, rowNew] 0 100 0 = Except.ok [⟨txOld, 5⟩]
    ∧ retrieve_combined_transactions [rowNew, rowOld] 0 100 0 = Except.ok [⟨txOld, 5⟩] :=
  ⟨by decide, by decide, rfl, rfl⟩

lemma pyIsDigitStr_iff (s : String) :
    pyIsDigitStr s = true ↔ s.toList ≠ [] ∧ s.toList.all pyCharIsDigit = true := by
  unfold pyIsDigitStr
  cases h : s.toList <;> simp

lemma pyInt_of_digits (p : String) (hne : p.toList ≠ [])
    (hall : p.toList.all Char.isDigit = true) :
    pyInt? p = some (digitsToNat p.toList : Int) := by
  unfold pyInt?
  cases hl : p.toList with
  | nil => exact absurd hl hne
  | cons ch rest =>
    rw [hl] at hall
    have hch : ch.isDigit = true :=
      List.all_eq_true.mp hall ch (List.mem_cons_self ch rest)
    have hplus : ch ≠ '+' := by intro h; rw [h] at hch; cases hch
    have hminus : ch ≠ '-' := by intro h; rw [h] at hch; cases hch
    simp [hplus, hminus, hall]

/-- Claim C5: `decode_memo` is total and on any failure (decoding error,
missing version byte, bad length access, UTF-8 error) returns `""`; on
success it returns the UTF-8 decoding of bytes `3` through `3 + L` of the
checksum-stripped payload where `L` is the byte at offset 2; and the empty
message is rejected by the downstream vote-format validation. -/
theorem decode_memo_spec (c : Codec) (memo : String) :
    (decode_memo c memo = "" ∨
      ∃ d len msg, c.b58decodeCheck memo = some d ∧ d.head? = some 0x14 ∧
        d[2]? = some len ∧ c.utf8Decode ((d.drop 3).take len) = some msg ∧
        decode_memo c memo = msg)
    ∧ (∀ d len msg, c.b58decodeCheck memo = some d → d.head? = some 0x14 →
        d[2]? = some len → c.utf8Decode ((d.drop 3).take len) = some msg →
        decode_memo c memo = msg)
    ∧ is_valid_message "" = false := by
  refine ⟨?_, ?_, rfl⟩
  · rcases h1 : c.b58decodeCheck memo with - | d
    · left; simp [decode_memo, h1]
    · rcases h2 : d.head? with - | b0
      · left; simp [decode_memo, h1, h2]
      · by_cases h3 : b0 = 0x14
        · subst h3
          rcases h4 : d[2]? with - | len
          · left; simp [decode_memo, h1, h2, h4]
          · rcases h5 : c.utf8Decode ((d.drop 3).take len) with - | msg
            · left; simp [decode_memo, h1, h2, h4, h5]
            · right
              exact ⟨d, len, msg, rfl, h2, h4, h5, by simp [decode_memo, h1, h2, h4, h5]⟩
        · left; simp [decode_memo, h1, h2, h3]
  · intro d len msg h1 h2 h3 h4
    simp [decode_memo, h1, h2, h3, h4]

theorem decode_memo_spec_witness : decode_memo demoCodec "MEMO" = "hi" :=
  (decode_memo_spec demoCodec "MEMO").2.1 [0x14, 0, 2, 104, 105, 0] 2 "hi"
    (by decide) (by decide) (by decide) (by decide)

/-- Claim C6 is violated by the code: `str.isdigit` also accepts the
digit-property characters that `int()` cannot parse, such as the
superscript two. For a memo decoding to `"yes ²"`, `is_valid_memo`
returns true although the second token does not parse as a non-negative
integer, the transaction passes filtering — and `count_votes` then raises
`ValueError` at `int(project_id_str)`, the `none` result below, so the
round-trip normalization never happens for it. (For digit tokens that do
parse, equal values share a tally key: see `pidKey_eq_of_value`.) -/
theorem isdigit_unparseable_token_bug :
    decode_memo demoCodecSup "MS" = "yes ²"
    ∧ is_valid_memo demoCodecSup "MS" = true
    ∧ pyInt? "²" = none
    ∧ filter_transactions demoCodecSup "BURN" 0 100 [supTxA] =
        some [⟨"i", "al", "1", "yes ²", 1⟩]
    ∧ count_votes [⟨"i", "al", "1", "yes ²", 1⟩] = none :=
  ⟨rfl, rfl, rfl, rfl, rfl⟩

/-- Tally keys of equal-valued parseable digit tokens coincide — the
normalization half of the vote-format claim, which survives on the
tokens `int()` accepts (for example `"007"` and `"7"`). -/
lemma pidKey_eq_of_value (p q : String) (hp : p.toList.all Char.isDigit = true)
    (hq : q.toList.all Char.isDigit = true) (hnp : p.toList ≠ []) (hnq : q.toList ≠ [])
    (hval : digitsToNat p.toList = digitsToNat q.toList) : pidKey p = pidKey q := by
  unfold pidKey
  rw [pyInt_of_digits p hnp hp, pyInt_of_digits q hnq hq, hval]

/-- Claim C9: a retrieved transaction appears in the pipeline's
transaction list exactly when it comes from a chain block, carries that
block's timestamp, and has every required field present; transactions
missing any of `id, to, from, amount, fee, memo, nonce, kind` are dropped
(no error is possible: the collection function is total), and the rest are
kept for the filter stage. -/
theorem required_fields_drop (chain : List Block) (t : TxA) :
    t ∈ get_transactions chain ↔
      ∃ b, b ∈ chain ∧ t.tx ∈ b.userCommands ∧ t.blockDate = b.date ∧
        ∀ f ∈ REQUIRED_TX_FIELDS, hasField t.tx f = true := by
  induction chain with
  | nil => simp [get_transactions]
  | cons b bs ih =>
    unfold get_transactions
    rw [List.mem_append, ih]
    constructor
    · rintro (h | ⟨b', hb', h2, h3, h4⟩)
      · obtain ⟨u, hu, hann⟩ := List.mem_map.mp h
        obtain ⟨humem, hens⟩ := List.mem_filter.mp hu
        subst hann
        refine ⟨b, List.mem_cons_self b bs, humem, rfl, ?_⟩
        intro f hf
        exact List.all_eq_true.mp hens f hf
      · exact ⟨b', List.mem_cons_of_mem b hb', h2, h3, h4⟩
    · rintro ⟨b', hb', h2, h3, h4⟩
      rcases List.mem_cons.mp hb' with rfl | hb'
      · left
        apply List.mem_map.mpr
        refine ⟨t.tx, List.mem_filter.mpr ⟨h2, List.all_eq_true.mpr h4⟩, ?_⟩
        cases t with
        | mk tx bd =>
          simp only at h3
          rw [h3]
      · right
        exact ⟨b', hb', h2, h3, h4⟩

theorem required_fields_drop_witness :
    (⟨goodTx, 50⟩ : TxA) ∈ get_transactions chain9 ∧
      ¬ (⟨badTx, 50⟩ : TxA) ∈ get_transactions chain9 :=
  ⟨(required_fields_drop chain9 ⟨goodTx, 50⟩).mpr
      ⟨⟨1, 50, [goodTx, badTx]⟩, by decide, by decide, rfl, by decide⟩,
    fun h => by
      obtain ⟨b, hb, -, -, hfields⟩ := (required_fields_drop chain9 ⟨badTx, 50⟩).mp h
      rcases List.mem_cons.mp hb with rfl | hb
      · exact absurd (hfields "nonce" (by decide)) (by decide)
      · cases hb⟩

/-- Claim C4: both window comparisons are inclusive on both ends and use
millisecond block timestamps. In reconciliation a transaction is emitted
exactly when its block lies in `[start, end]`; in tally filtering a kept
transaction's block timestamp lies in `[start, end]`, an out-of-window
transaction is always skipped (never kept, never an error), and a
transaction meeting every other criterion whose timestamp equals a bound
is kept. -/
theorem window_inclusive (c : Codec) (burn : String) (s e : Int) :
    (∀ (bs : List Block) (t : TxA),
      t ∈ emitWindow s e bs ↔
        ∃ b, b ∈ bs ∧ t.tx ∈ b.userCommands ∧ t.blockDate = b.date ∧
          s ≤ b.date ∧ b.date ≤ e)
    ∧ (∀ (txs : List TxA) (out : List FTx),
        filter_transactions c burn s e txs = some out →
        ∀ f, f ∈ out ↔ ∃ t, t ∈ txs ∧ filterOne c burn s e t = some (some f))
    ∧ (∀ t f, filterOne c burn s e t = some (some f) → s ≤ t.blockDate ∧ t.blockDate ≤ e)
    ∧ (∀ t : TxA, t.blockDate < s ∨ e < t.blockDate → filterOne c burn s e t = some none)
    ∧ (∀ (t : TxA) (toA kind memo i fr am : String) (n : Int),
        t.tx.toAddr = some toA → toA = burn → t.tx.kind = some kind →
        kind = "PAYMENT" → t.tx.memo = some memo → is_valid_memo c memo = true →
        t.tx.id = some i → t.tx.sender = some fr → t.tx.amount = some am →
        t.tx.nonce = some n → s ≤ t.blockDate → t.blockDate ≤ e →
        filterOne c burn s e t = some (some ⟨i, fr, am, decode_memo c memo, n⟩)) := by
  refine ⟨?_, ?_, ?_, ?_, ?_⟩
  · intro bs t
    induction bs with
    | nil => simp [emitWindow]
    | cons b bs ih =>
      unfold emitWindow
      rw [List.mem_append, ih]
      constructor
      · rintro (h | ⟨b', hb', h2, h3, h4, h5⟩)
        · by_cases hw : s ≤ b.date ∧ b.date ≤ e
          · rw [if_pos hw] at h
            obtain ⟨u, hu, hann⟩ := List.mem_map.mp h
            subst hann
            exact ⟨b, List.mem_cons_self b bs, hu, rfl, hw.1, hw.2⟩
          · rw [if_neg hw] at h
            exact absurd h (List.not_mem_nil t)
        · exact ⟨b', List.mem_cons_of_mem b hb', h2, h3, h4, h5⟩
      · rintro ⟨b', hb', h2, h3, h4, h5⟩
        rcases List.mem_cons.mp hb' with rfl | hb'
        · left
          rw [if_pos ⟨h4, h5⟩]
          apply List.mem_map.mpr
          refine ⟨t.tx, h2, ?_⟩
          cases t with
          | mk tx bd =>
            simp only at h3
            rw [h3]
        · right
          exact ⟨b', hb', h2, h3, h4, h5⟩
  · intro txs
    induction txs with
    | nil =>
      intro out hout f
      unfold filter_transactions at hout
      injection hout with h
      subst h
      simp
    | cons t ts ih =>
      intro out hout f
      unfold filter_transactions at hout
      rcases h1 : filterOne c burn s e t with - | o
      · rw [h1] at hout; cases hout
      · rw [h1] at hout
        cases o with
        | none =>
          rw [ih out hout f]
          constructor
          · rintro ⟨t', ht', h2⟩
            exact ⟨t', List.mem_cons_of_mem t ht', h2⟩
          · rintro ⟨t', ht', h2⟩
            rcases List.mem_cons.mp ht' with rfl | ht'
            · rw [h1] at h2
              injection h2 with h3
              cases h3
            · exact ⟨t', ht', h2⟩
        | some g =>
          rcases h2 : filter_transactions c burn s e ts with - | rest
          · rw [h2] at hout; cases hout
          · rw [h2] at hout
            injection hout with h3
            subst h3
            rw [List.mem_cons]
            constructor
            · rintro (rfl | hf)
              · exact ⟨t, List.mem_cons_self t ts, h1⟩
              · obtain ⟨t', ht', h4⟩ := (ih rest h2 f).mp hf
                exact ⟨t', List.mem_cons_of_mem t ht', h4⟩
            · rintro ⟨t', ht', h4⟩
              rcases List.mem_cons.mp ht' with rfl | ht'
              · rw [h1] at h4
                injection h4 with h5
                injection h5 with h6
                left
                rw [h6]
              · right
                exact (ih rest h2 f).mpr ⟨t', ht', h4⟩
  · intro t f h
    rcases ht : t.tx.toAddr with - | toA
    · simp [filterOne, ht] at h
    · by_cases hb : toA = burn
      · by_cases hw : s ≤ t.blockDate ∧ t.blockDate ≤ e
        · exact hw
        · simp [filterOne, ht, hb, hw] at h
      · simp [filterOne, ht, hb] at h
  · intro t hor
    have hw : ¬ (s ≤ t.blockDate ∧ t.blockDate ≤ e) := by
      rcases hor with h | h <;> omega
    rcases ht : t.tx.toAddr with - | toA
    · simp [filterOne, ht]
    · by_cases hb : toA = burn
      · simp [filterOne, ht, hb, hw]
      · simp [filterOne, ht, hb]
  · intro t toA kind memo i fr am n h1 h2 h3 h4 h5 h6 h7 h8 h9 h10 h11 h12
    subst h2
    subst h4
    simp [filterOne, h1, h3, h5, h6, h7, h8, h9, h10, h11, h12]

theorem window_inclusive_witness :
    filterOne demoCodec6 "BURN" 10 20 winTxA =
      some (some ⟨"i", "al", "1", decode_memo demoCodec6 "M6", 1⟩) :=
  (window_inclusive demoCodec6 "BURN" 10 20).2.2.2.2 winTxA "BURN" "PAYMENT" "M6"
    "i" "al" "1" 1 rfl rfl rfl rfl rfl (by decide) rfl rfl rfl rfl (by decide) (by decide)

lemma alookup_updD (m : List (String × String)) (k v k' : String) :
    alookup (updD m k v) k' = if k = k' then some v else alookup m k' := by
  induction m with
  | nil => simp [updD, alookup]
  | cons kv rest ih =>
    obtain ⟨k1, v1⟩ := kv
    by_cases h1 : k1 = k
    · subst h1
      by_cases h2 : k1 = k'
      · subst h2; simp [updD, alookup]
      · simp [updD, alookup, h2]
    · by_cases h2 : k1 = k'
      · subst h2
        have h3 : ¬ k = k1 := fun h => h1 h.symm
        simp [updD, alookup, h1, h3]
      · simp [updD, alookup, h1, h2, ih]

lemma lvlookup_updLatest (m : List (String × List (String × String)))
    (pid a v pid' a' : String) :
    lvlookup (updLatest m pid a v) pid' a' =
      if pid = pid' ∧ a = a' then some v else lvlookup m pid' a' := by
  induction m with
  | nil =>
    by_cases h1 : pid = pid'
    · subst h1
      by_cases h2 : a = a'
      · subst h2; simp [updLatest, lvlookup, alookup]
      · simp [updLatest, lvlookup, alookup, h2]
    · simp [updLatest, lvlookup, alookup, h1]
  | cons q rest ih =>
    obtain ⟨p, inner⟩ := q
    by_cases h1 : p = pid
    · subst h1
      by_cases h2 : p = pid'
      · subst h2
        by_cases h3 : a = a'
        · subst h3; simp [updLatest, lvlookup, alookup, alookup_updD]
        · simp [updLatest, lvlookup, alookup, alookup_updD, h3]
      · simp [updLatest, lvlookup, alookup, h2, fun h : p = pid' ∧ a = a' => h2 h.1]
    · by_cases h2 : p = pid'
      · subst h2
        have h4 : ¬ (pid = p ∧ a = a') := fun h => h1 h.1.symm
        simp [updLatest, lvlookup, alookup, h1, h4]
      · have hl : lvlookup ((p, inner) :: updLatest rest pid a v) pid' a' =
            lvlookup (updLatest rest pid a v) pid' a' := by
          simp only [lvlookup, alookup, if_neg h2]
        have hr : lvlookup ((p, inner) :: rest) pid' a' =
            lvlookup rest pid' a' := by
          simp only [lvlookup, alookup, if_neg h2]
        simp only [updLatest, if_neg h1]
        rw [hl, ih, hr]

lemma alookup_some_mem {β : Type} (m : List (String × β)) (k : String) (v : β)
    (h : alookup m k = some v) : (k, v) ∈ m := by
  induction m with
  | nil => cases h
  | cons kv rest ih =>
    obtain ⟨k1, v1⟩ := kv
    rw [alookup] at h
    by_cases h1 : k1 = k
    · rw [if_pos h1] at h
      injection h with h2
      subst h1
      subst h2
      exact List.mem_cons_self _ _
    · rw [if_neg h1] at h
      exact List.mem_cons_of_mem _ (ih h)

lemma mem_alookup {β : Type} (m : List (String × β)) (k : String) (v : β)
    (hnd : (keys m).Nodup) (h : (k, v) ∈ m) : alookup m k = some v := by
  induction m with
  | nil => cases h
  | cons kv rest ih =>
    obtain ⟨k1, v1⟩ := kv
    rw [keys, List.map_cons, List.nodup_cons] at hnd
    rcases List.mem_cons.mp h with heq | hmem
    · injection heq with e1 e2
      subst e1
      subst e2
      simp [alookup]
    · by_cases h1 : k1 = k
      · exfalso
        subst h1
        exact hnd.1 (List.mem_map.mpr ⟨(k1, v), hmem, rfl⟩)
      · rw [alookup, if_neg h1]
        exact ih hnd.2 hmem

lemma keys_updD_sub (m : List (String × String)) (k v x : String)
    (h : x ∈ keys (updD m k v)) : x ∈ keys m ∨ x = k := by
  induction m with
  | nil =>
    right
    simpa [updD, keys] using h
  | cons kv rest ih =>
    obtain ⟨k1, v1⟩ := kv
    by_cases h1 : k1 = k
    · subst h1
      simp only [updD, if_pos rfl, keys, List.map_cons] at h ⊢
      exact Or.inl h
    · simp only [updD, if_neg h1, keys, List.map_cons, List.mem_cons] at h ⊢
      rcases h with rfl | h
      · exact Or.inl (Or.inl rfl)
      · rcases ih h with h2 | h2
        · exact Or.inl (Or.inr h2)
        · exact Or.inr h2

lemma keys_updD_nodup (m : List (String × String)) (k v : String)
    (h : (keys m).Nodup) : (keys (updD m k v)).Nodup := by
  induction m with
  | nil => simp [updD, keys]
  | cons kv rest ih =>
    obtain ⟨k1, v1⟩ := kv
    rw [keys, List.map_cons, List.nodup_cons] at h
    by_cases h1 : k1 = k
    · subst h1
      have hupd : updD ((k1, v1) :: rest) k1 v = (k1, v) :: rest := by
        simp [updD]
      rw [hupd, keys, List.map_cons, List.nodup_cons]
      exact h
    · simp only [updD, if_neg h1, keys, List.map_cons, List.nodup_cons]
      refine ⟨?_, ih h.2⟩
      intro hmem
      rcases keys_updD_sub rest k v k1 hmem with h2 | h2
      · exact h.1 h2
      · exact h1 h2

lemma keys_updLatest_sub (m : List (String × List (String × String)))
    (pid a v x : String) (h : x ∈ keys (updLatest m pid a v)) :
    x ∈ keys m ∨ x = pid := by
  induction m with
  | nil =>
    right
    simpa [updLatest, keys] using h
  | cons q rest ih =>
    obtain ⟨p, inner⟩ := q
    by_cases h1 : p = pid
    · subst h1
      simp only [updLatest, if_pos rfl, keys, List.map_cons] at h ⊢
      exact Or.inl h
    · simp only [updLatest, if_neg h1, keys, List.map_cons, List.mem_cons] at h ⊢
      rcases h with rfl | h
      · exact Or.inl (Or.inl rfl)
      · rcases ih h with h2 | h2
        · exact Or.inl (Or.inr h2)
        · exact Or.inr h2

lemma keys_updLatest_nodup (m : List (String × List (String × String)))
    (pid a v : String) (h : (keys m).Nodup) : (keys (updLatest m pid a v)).Nodup := by
  induction m with
  | nil => simp [updLatest, keys]
  | cons q rest ih =>
    obtain ⟨p, inner⟩ := q
    rw [keys, List.map_cons, List.nodup_cons] at h
    by_cases h1 : p = pid
    · subst h1
      have hupd : updLatest ((p, inner) :: rest) p a v = (p, updD inner a v) :: rest := by
        simp [updLatest]
      rw [hupd, keys, List.map_cons, List.nodup_cons]
      exact h
    · simp only [updLatest, if_neg h1, keys, List.map_cons, List.nodup_cons]
      refine ⟨?_, ih h.2⟩
      intro hmem
      rcases keys_updLatest_sub rest pid a v p hmem with h2 | h2
      · exact h.1 h2
      · exact h1 h2

lemma updLatest_entries (m : List (String × List (String × String)))
    (pid a v : String) (p : String × List (String × String))
    (hp : p ∈ updLatest m pid a v) :
    p ∈ m ∨ (∃ inner, (p.1, inner) ∈ m ∧ p.2 = updD inner a v) ∨ p = (pid, [(a, v)]) := by
  induction m with
  | nil =>
    right; right
    simpa [updLatest] using hp
  | cons q rest ih =>
    obtain ⟨pk, pinner⟩ := q
    by_cases h1 : pk = pid
    · subst h1
      simp only [updLatest, if_pos rfl] at hp
      rcases List.mem_cons.mp hp with heq | hmem
      · right; left
        refine ⟨pinner, ?_, ?_⟩
        · rw [heq]
          exact List.mem_cons_self _ _
        · rw [heq]
      · exact Or.inl (List.mem_cons_of_mem _ hmem)
    · simp only [updLatest, if_neg h1] at hp
      rcases List.mem_cons.mp hp with heq | hmem
      · left
        rw [heq]
        exact List.mem_cons_self _ _
      · rcases ih hmem with h | ⟨inner, hi, he⟩ | h
        · exact Or.inl (List.mem_cons_of_mem _ h)
        · exact Or.inr (Or.inl ⟨inner, List.mem_cons_of_mem _ hi, he⟩)
        · exact Or.inr (Or.inr h)

lemma LVWf_updLatest (m : List (String × List (String × String)))
    (pid a v : String) (h : LVWf m) : LVWf (updLatest m pid a v) := by
  obtain ⟨h1, h2⟩ := h
  refine ⟨keys_updLatest_nodup m pid a v h1, ?_⟩
  intro p hp
  rcases updLatest_entries m pid a v p hp with hm | ⟨inner, hi, he⟩ | heq
  · exact h2 p hm
  · rw [he]
    exact keys_updD_nodup inner a v (h2 (p.1, inner) hi)
  · rw [heq]
    simp [keys]

lemma buildLatestAux_wf (txs : List FTx) :
    ∀ acc m, LVWf acc → buildLatestAux acc txs = some m → LVWf m := by
  induction txs with
  | nil =>
    intro acc m hw h
    simp only [buildLatestAux] at h
    injection h with h2
    rw [← h2]
    exact hw
  | cons t ts ih =>
    intro acc m hw h
    simp only [buildLatestAux] at h
    rcases h1 : voteParts t.memo with - | ⟨v, pstr⟩
    · simp only [h1] at h
      exact Option.noConfusion h
    · simp only [h1] at h
      rcases h2 : pidKey pstr with - | pid
      · simp only [h2] at h
        exact Option.noConfusion h
      · simp only [h2] at h
        exact ih _ m (LVWf_updLatest _ _ _ _ hw) h

lemma buildLatestAux_lookup (txs : List FTx) :
    ∀ acc m, buildLatestAux acc txs = some m →
      ∀ pid a, lvlookup m pid a = lastChoice (lvlookup acc pid a) txs pid a := by
  induction txs with
  | nil =>
    intro acc m h pid a
    simp only [buildLatestAux] at h
    injection h with h2
    rw [← h2]
    rfl
  | cons t ts ih =>
    intro acc m h pid a
    simp only [buildLatestAux] at h
    rcases h1 : voteParts t.memo with - | ⟨v, pstr⟩
    · simp only [h1] at h
      exact Option.noConfusion h
    · simp only [h1] at h
      rcases h2 : pidKey pstr with - | pid0
      · simp only [h2] at h
        exact Option.noConfusion h
      · simp only [h2] at h
        have hstep := ih (updLatest acc pid0 t.sender v) m h pid a
        rw [hstep]
        have hfold : lastChoice (lvlookup acc pid a) (t :: ts) pid a =
            lastChoice (if t.sender = a ∧ txPid t = some pid then txVote t
              else lvlookup acc pid a) ts pid a := rfl
        rw [hfold]
        congr 1
        rw [lvlookup_updLatest]
        have hpid : txPid t = some pid0 := by
          unfold txPid
          rw [h1]
          simpa using h2
        have hvote : txVote t = some v := by
          unfold txVote
          rw [h1]
          rfl
        by_cases hc : pid0 = pid ∧ t.sender = a
        · rw [if_pos hc, if_pos ⟨hc.2, by rw [hpid, hc.1]⟩, hvote]
        · have hc2 : ¬ (t.sender = a ∧ txPid t = some pid) := by
            intro hx
            apply hc
            refine ⟨?_, hx.1⟩
            have hx2 := hx.2
            rw [hpid] at hx2
            injection hx2 with h5
          rw [if_neg hc, if_neg hc2]

lemma buildLatestAux_total (txs : List FTx)
    (hm : ∀ t ∈ txs, (txPid t).isSome = true) :
    ∀ acc, ∃ m, buildLatestAux acc txs = some m := by
  induction txs with
  | nil => intro acc; exact ⟨acc, rfl⟩
  | cons t ts ih =>
    intro acc
    have ht := hm t (List.mem_cons_self t ts)
    rcases h1 : voteParts t.memo with - | ⟨v, pstr⟩
    · rw [txPid, h1] at ht
      cases ht
    · rcases h2 : pidKey pstr with - | pid
      · rw [txPid, h1] at ht
        simp [h2] at ht
      · obtain ⟨m, hmm⟩ :=
          ih (fun t' ht' => hm t' (List.mem_cons_of_mem t ht')) (updLatest acc pid t.sender v)
        refine ⟨m, ?_⟩
        simp only [buildLatestAux, h1, h2]
        exact hmm

lemma mem_materialize_yes (votes : List (String × String)) (a : String) :
    a ∈ (materializeVotes votes).yes_votes.addresses ↔ (a, "yes") ∈ votes := by
  unfold materializeVotes
  constructor
  · intro h
    obtain ⟨av, hav, he⟩ := List.mem_map.mp h
    obtain ⟨hm, hp⟩ := List.mem_filter.mp hav
    obtain ⟨a1, v1⟩ := av
    simp only [decide_eq_true_eq] at hp
    simp only at he
    rw [← he, ← hp]
    exact hm
  · intro h
    exact List.mem_map.mpr ⟨(a, "yes"), List.mem_filter.mpr ⟨h, by simp⟩, rfl⟩

lemma mem_materialize_no (votes : List (String × String)) (a : String) :
    a ∈ (materializeVotes votes).no_votes.addresses ↔ (a, "no") ∈ votes := by
  unfold materializeVotes
  constructor
  · intro h
    obtain ⟨av, hav, he⟩ := List.mem_map.mp h
    obtain ⟨hm, hp⟩ := List.mem_filter.mp hav
    obtain ⟨a1, v1⟩ := av
    simp only [decide_eq_true_eq] at hp
    simp only at he
    rw [← he, ← hp]
    exact hm
  · intro h
    exact List.mem_map.mpr ⟨(a, "no"), List.mem_filter.mpr ⟨h, by simp⟩, rfl⟩

lemma materialize_nodup (votes : List (String × String))
    (h : (keys votes).Nodup) :
    (materializeVotes votes).yes_votes.addresses.Nodup ∧
      (materializeVotes votes).no_votes.addresses.Nodup := by
  constructor <;>
    exact h.sublist (List.Sublist.map _ (List.filter_sublist votes))

lemma materialize_disjoint (votes : List (String × String))
    (h : (keys votes).Nodup) (a : String) :
    ¬ (a ∈ (materializeVotes votes).yes_votes.addresses ∧
        a ∈ (materializeVotes votes).no_votes.addresses) := by
  rintro ⟨hy, hn⟩
  have h1 := (mem_materialize_yes votes a).mp hy
  have h2 := (mem_materialize_no votes a).mp hn
  have e1 := mem_alookup votes a "yes" h h1
  have e2 := mem_alookup votes a "no" h h2
  rw [e1] at e2
  injection e2 with e3
  exact absurd e3 (by decide)

/-- Claim C8: tallying is stateless and idempotent — two evaluations of
`count_votes` on the same transaction list are equal as whole values, and
in any successful result every project entry has matching counts and
address collections: `count` equals the number of addresses, the address
collections are duplicate-free, and no address sits in both sets. -/
theorem tally_idempotent (txs : List FTx) :
    count_votes txs = count_votes txs
    ∧ (∀ vc, count_votes txs = some vc → ∀ pid pv, (pid, pv) ∈ vc →
        pv.yes_votes.count = pv.yes_votes.addresses.length
        ∧ pv.no_votes.count = pv.no_votes.addresses.length
        ∧ pv.yes_votes.addresses.Nodup ∧ pv.no_votes.addresses.Nodup
        ∧ ∀ a, ¬ (a ∈ pv.yes_votes.addresses ∧ a ∈ pv.no_votes.addresses)) := by
  refine ⟨rfl, ?_⟩
  intro vc hvc pid pv hmem
  unfold count_votes at hvc
  rcases h1 : buildLatestAux [] txs with - | m
  · rw [h1] at hvc
    cases hvc
  · rw [h1] at hvc
    injection hvc with h2
    subst h2
    obtain ⟨⟨pid', votes⟩, hpm, heq⟩ := List.mem_map.mp hmem
    have hwf := buildLatestAux_wf txs [] m ⟨List.nodup_nil, by intro p hp; cases hp⟩ h1
    injection heq with e1 e2
    subst e2
    have hin : (keys votes).Nodup := hwf.2 (pid', votes) hpm
    exact ⟨rfl, rfl, (materialize_nodup votes hin).1, (materialize_nodup votes hin).2,
      materialize_disjoint votes hin⟩

theorem tally_idempotent_witness :
    (⟨⟨1, ["alice"]⟩, ⟨1, ["bob"]⟩⟩ : ProjectVotes).yes_votes.count =
        (⟨⟨1, ["alice"]⟩, ⟨1, ["bob"]⟩⟩ : ProjectVotes).yes_votes.addresses.length
      ∧ (⟨⟨1, ["alice"]⟩, ⟨1, ["bob"]⟩⟩ : ProjectVotes).no_votes.count =
        (⟨⟨1, ["alice"]⟩, ⟨1, ["bob"]⟩⟩ : ProjectVotes).no_votes.addresses.length
      ∧ (⟨⟨1, ["alice"]⟩, ⟨1, ["bob"]⟩⟩ : ProjectVotes).yes_votes.addresses.Nodup
      ∧ (⟨⟨1, ["alice"]⟩, ⟨1, ["bob"]⟩⟩ : ProjectVotes).no_votes.addresses.Nodup
      ∧ ∀ a, ¬ (a ∈ (⟨⟨1, ["alice"]⟩, ⟨1, ["bob"]⟩⟩ : ProjectVotes).yes_votes.addresses
          ∧ a ∈ (⟨⟨1, ["alice"]⟩, ⟨1, ["bob"]⟩⟩ : ProjectVotes).no_votes.addresses) :=
  (tally_idempotent demoTally).2 [("1", ⟨⟨1, ["alice"]⟩, ⟨1, ["bob"]⟩⟩)] rfl
    "1" ⟨⟨1, ["alice"]⟩, ⟨1, ["bob"]⟩⟩ (List.mem_cons_self _ _)

lemma accountKeys_aux_mem (txs : List FTx) :
    ∀ (ks : List String) (a : String),
      a ∈ txs.foldl (fun ks t => if t.sender ∈ ks then ks else ks ++ [t.sender]) ks ↔
        a ∈ ks ∨ ∃ t ∈ txs, t.sender = a := by
  induction txs with
  | nil => intro ks a; simp
  | cons t ts ih =>
    intro ks a
    rw [List.foldl_cons, ih]
    by_cases h : t.sender ∈ ks
    · rw [if_pos h]
      constructor
      · rintro (h1 | ⟨t', ht', he⟩)
        · exact Or.inl h1
        · exact Or.inr ⟨t', List.mem_cons_of_mem t ht', he⟩
      · rintro (h1 | ⟨t', ht', he⟩)
        · exact Or.inl h1
        · rcases List.mem_cons.mp ht' with rfl | ht2
          · exact Or.inl (he ▸ h)
          · exact Or.inr ⟨t', ht2, he⟩
    · rw [if_neg h]
      constructor
      · rintro (h1 | ⟨t', ht', he⟩)
        · rcases List.mem_append.mp h1 with h2 | h2
          · exact Or.inl h2
          · right
            refine ⟨t, List.mem_cons_self t ts, ?_⟩
            have h3 : a = t.sender := by simpa using h2
            exact h3.symm
        · exact Or.inr ⟨t', List.mem_cons_of_mem t ht', he⟩
      · rintro (h1 | ⟨t', ht', he⟩)
        · exact Or.inl (List.mem_append.mpr (Or.inl h1))
        · rcases List.mem_cons.mp ht' with rfl | ht2
          · refine Or.inl (List.mem_append.mpr (Or.inr ?_))
            simp [he]
          · exact Or.inr ⟨t', ht2, he⟩

lemma mem_accountKeys (txs : List FTx) (a : String) :
    a ∈ accountKeys txs ↔ ∃ t ∈ txs, t.sender = a := by
  unfold accountKeys
  rw [accountKeys_aux_mem]
  simp

lemma accountKeys_aux_nodup (txs : List FTx) :
    ∀ ks : List String, ks.Nodup →
      (txs.foldl (fun ks t => if t.sender ∈ ks then ks else ks ++ [t.sender]) ks).Nodup := by
  induction txs with
  | nil => intro ks h; exact h
  | cons t ts ih =>
    intro ks h
    rw [List.foldl_cons]
    by_cases hm : t.sender ∈ ks
    · rw [if_pos hm]
      exact ih ks h
    · rw [if_neg hm]
      apply ih
      rw [List.nodup_append]
      refine ⟨h, List.nodup_singleton _, ?_⟩
      intro x hx hx2
      rw [List.mem_singleton] at hx2
      subst hx2
      exact hm hx

lemma accountKeys_nodup (txs : List FTx) : (accountKeys txs).Nodup :=
  accountKeys_aux_nodup txs [] List.nodup_nil

lemma filter_insertionSort_other (txs : List FTx) (a b : String) (hne : b ≠ a) :
    (List.insertionSort nonceLe (txs.filter (fun t => decide (t.sender = b)))).filter
      (fun t => decide (t.sender = a)) = [] := by
  rw [List.filter_eq_nil]
  intro t ht
  rw [List.mem_insertionSort] at ht
  have h2 := (List.mem_filter.mp ht).2
  simp only [decide_eq_true_eq] at h2 ⊢
  rw [h2]
  exact hne

lemma filter_insertionSort_self (txs : List FTx) (a : String) :
    (List.insertionSort nonceLe (txs.filter (fun t => decide (t.sender = a)))).filter
      (fun t => decide (t.sender = a)) =
      List.insertionSort nonceLe (txs.filter (fun t => decide (t.sender = a))) := by
  rw [List.filter_eq_self]
  intro t ht
  rw [List.mem_insertionSort] at ht
  exact (List.mem_filter.mp ht).2

lemma seqGroups_filter (txs : List FTx) (a : String) :
    ∀ ks : List String, ks.Nodup →
      (seqGroups txs ks).filter (fun t => decide (t.sender = a)) =
        if a ∈ ks then
          List.insertionSort nonceLe (txs.filter (fun t => decide (t.sender = a)))
        else [] := by
  intro ks
  induction ks with
  | nil => intro h; simp [seqGroups]
  | cons b ks ih =>
    intro h
    rw [List.nodup_cons] at h
    simp only [seqGroups]
    rw [List.filter_append, ih h.2]
    by_cases hb : b = a
    · subst hb
      rw [filter_insertionSort_self, if_neg (fun hmem => h.1 hmem),
        if_pos (List.mem_cons_self b ks)]
      simp
    · rw [filter_insertionSort_other txs a b hb]
      by_cases ha : a ∈ ks
      · rw [if_pos ha, if_pos (List.mem_cons_of_mem b ha)]
        simp
      · have hnc : a ∉ b :: ks := by
          intro hmem
          rcases List.mem_cons.mp hmem with h2 | h2
          · exact hb h2.symm
          · exact ha h2
        rw [if_neg ha, if_neg hnc]
        simp

lemma sequence_filter (txs : List FTx) (a : String) :
    (sequence_transactions txs).filter (fun t => decide (t.sender = a)) =
      List.insertionSort nonceLe (txs.filter (fun t => decide (t.sender = a))) := by
  unfold sequence_transactions
  rw [seqGroups_filter txs a (accountKeys txs) (accountKeys_nodup txs)]
  by_cases h : a ∈ accountKeys txs
  · rw [if_pos h]
  · rw [if_neg h]
    have h2 : txs.filter (fun t => decide (t.sender = a)) = [] := by
      rw [List.filter_eq_nil]
      intro t ht hsend
      simp only [decide_eq_true_eq] at hsend
      exact h ((mem_accountKeys txs a).mpr ⟨t, ht, hsend⟩)
    rw [h2]
    rfl

lemma seqGroups_subset (txs : List FTx) (ks : List String) (t : FTx)
    (h : t ∈ seqGroups txs ks) : t ∈ txs := by
  induction ks with
  | nil => cases h
  | cons b ks ih =>
    simp only [seqGroups] at h
    rcases List.mem_append.mp h with h1 | h1
    · rw [List.mem_insertionSort] at h1
      exact (List.mem_filter.mp h1).1
    · exact ih h1

lemma mem_sequence (txs : List FTx) (t : FTx) (h : t ∈ sequence_transactions txs) :
    t ∈ txs :=
  seqGroups_subset txs (accountKeys txs) t h

lemma filter_decide_and (l : List FTx) (P Q : FTx → Prop)
    [DecidablePred P] [DecidablePred Q] :
    l.filter (fun t => decide (P t ∧ Q t)) =
      (l.filter (fun t => decide (P t))).filter (fun t => decide (Q t)) := by
  rw [List.filter_filter]
  apply List.filter_congr
  intro t ht
  by_cases hp : P t
  · by_cases hq : Q t
    · simp [hp, hq]
    · simp [hp, hq]
  · simp [hp]

lemma lastD_aux {α : Type} (l : List α) :
    ∀ x : α, l.foldl (fun _ t => some t) (some x) =
      match lastD l with
      | none => some x
      | some y => some y := by
  induction l with
  | nil => intro x; rfl
  | cons y ys ih =>
    intro x
    rw [List.foldl_cons, ih y]
    have h2 : lastD (y :: ys) = match lastD ys with
        | none => some y
        | some z => some z := by
      unfold lastD
      rw [List.foldl_cons]
      exact ih y
    rw [h2]
    cases lastD ys <;> rfl

lemma lastD_cons {α : Type} (x : α) (l : List α) :
    lastD (x :: l) = match lastD l with
      | none => some x
      | some y => some y := by
  unfold lastD
  rw [List.foldl_cons]
  exact lastD_aux l x

lemma lastD_mem {α : Type} (l : List α) (t : α) (h : lastD l = some t) : t ∈ l := by
  induction l with
  | nil => cases h
  | cons x xs ih =>
    rw [lastD_cons] at h
    rcases h2 : lastD xs with - | y
    · rw [h2] at h
      injection h with h3
      subst h3
      exact List.mem_cons_self _ _
    · rw [h2] at h
      injection h with h3
      subst h3
      exact List.mem_cons_of_mem _ (ih h2)

lemma lastD_none_iff {α : Type} (l : List α) : lastD l = none ↔ l = [] := by
  cases l with
  | nil => simp [lastD]
  | cons x xs =>
    rw [lastD_cons]
    constructor
    · intro h
      rcases h2 : lastD xs with - | y <;> rw [h2] at h <;> cases h
    · intro h
      cases h

lemma lastD_isSome {α : Type} (x : α) (l : List α) : ∃ z, lastD (x :: l) = some z := by
  rw [lastD_cons]
  rcases lastD l with - | y
  · exact ⟨x, rfl⟩
  · exact ⟨y, rfl⟩

lemma lastD_some_of_mem {α : Type} (l : List α) (t : α) (h : t ∈ l) :
    ∃ z, lastD l = some z := by
  cases l with
  | nil => cases h
  | cons x xs => exact lastD_isSome x xs

lemma lastD_max (l : List FTx) : List.Sorted nonceLe l → ∀ t, lastD l = some t →
    ∀ y ∈ l, y.nonce ≤ t.nonce := by
  induction l with
  | nil => intro _ t h; cases h
  | cons x xs ih =>
    intro hs t h y hy
    rw [List.sorted_cons] at hs
    rw [lastD_cons] at h
    rcases h2 : lastD xs with - | z
    · rw [h2] at h
      injection h with h3
      subst h3
      have hxs : xs = [] := (lastD_none_iff xs).mp h2
      subst hxs
      rcases List.mem_cons.mp hy with rfl | hy2
      · exact le_refl _
      · cases hy2
    · rw [h2] at h
      injection h with h3
      subst h3
      rcases List.mem_cons.mp hy with rfl | hy2
      · exact hs.1 _ (lastD_mem xs _ h2)
      · exact ih hs.2 _ h2 y hy2

lemma lastChoice_eq_filter (l : List FTx) (pid a : String) :
    ∀ init, lastChoice init l pid a =
      match lastD (l.filter (fun t => decide (t.sender = a ∧ txPid t = some pid))) with
      | none => init
      | some t => txVote t := by
  induction l with
  | nil => intro init; rfl
  | cons t ts ih =>
    intro init
    have hstep : lastChoice init (t :: ts) pid a =
        lastChoice (if t.sender = a ∧ txPid t = some pid then txVote t else init) ts pid a :=
      rfl
    rw [hstep]
    by_cases hc : t.sender = a ∧ txPid t = some pid
    · rw [if_pos hc, ih (txVote t)]
      have hf : (t :: ts).filter (fun u => decide (u.sender = a ∧ txPid u = some pid)) =
          t :: ts.filter (fun u => decide (u.sender = a ∧ txPid u = some pid)) := by
        simp [List.filter_cons, hc]
      rw [hf, lastD_cons]
      rcases hld : lastD (ts.filter (fun u => decide (u.sender = a ∧ txPid u = some pid)))
        with - | z
      · rw [hld]
      · rw [hld]
    · rw [if_neg hc, ih init]
      have hf : (t :: ts).filter (fun u => decide (u.sender = a ∧ txPid u = some pid)) =
          ts.filter (fun u => decide (u.sender = a ∧ txPid u = some pid)) := by
        simp [List.filter_cons, hc]
      rw [hf]

lemma sfs_sorted (txs : List FTx) (pid a : String) :
    List.Sorted nonceLe (senderFilterSorted txs pid a) :=
  List.Pairwise.sublist (List.filter_sublist _) (List.sorted_insertionSort nonceLe _)

lemma sfs_perm (txs : List FTx) (pid a : String) :
    (senderFilterSorted txs pid a).Perm
      ((txs.filter (fun t => decide (t.sender = a))).filter
        (fun t => decide (txPid t = some pid))) :=
  (List.perm_insertionSort nonceLe _).filter _

lemma sfs_mem (txs : List FTx) (pid a : String) (t : FTx) :
    t ∈ senderFilterSorted txs pid a ↔
      t ∈ txs ∧ t.sender = a ∧ txPid t = some pid := by
  unfold senderFilterSorted
  rw [List.mem_filter, List.mem_insertionSort, List.mem_filter]
  simp [and_assoc]

lemma lvchar (txs : List FTx) (pid a : String) :
    lastChoice none (sequence_transactions txs) pid a =
      match lastD (senderFilterSorted txs pid a) with
      | none => none
      | some t => txVote t := by
  rw [lastChoice_eq_filter, filter_decide_and, sequence_filter]
  rfl

/-- Claim C2: after per-sender nonce-ascending sequencing, `count_votes`
succeeds on the sequenced transactions and, in every project entry of the
result, a sender is among the yes (resp. no) addresses exactly when the
sender's highest-nonce vote for that project is `"yes"` (resp. `"no"`); no
sender is in both sets; and every `(project, sender)` pair that voted
appears in one of the sets. The hypotheses hold for `filter_transactions`
output whose project tokens are ASCII digit strings (see
`filter_output_valid`; an isdigit-accepted token `int()` cannot parse
instead makes `count_votes` raise — the superscript-digit bug) together
with per-sender distinct nonces. -/
theorem latest_vote_wins (txs : List FTx)
    (hm : ∀ t ∈ txs, (txPid t).isSome = true)
    (hv : ∀ t ∈ txs, txVote t = some "yes" ∨ txVote t = some "no")
    (hn : ∀ t ∈ txs, ∀ t' ∈ txs, t.sender = t'.sender → t.nonce = t'.nonce → t = t') :
    ∃ vc, count_votes (sequence_transactions txs) = some vc
      ∧ (∀ pid pv, (pid, pv) ∈ vc → ∀ a,
          ¬ (a ∈ pv.yes_votes.addresses ∧ a ∈ pv.no_votes.addresses)
          ∧ (a ∈ pv.yes_votes.addresses ↔
              ∃ t, t ∈ txs ∧ t.sender = a ∧ txPid t = some pid ∧ txVote t = some "yes" ∧
                ∀ t', t' ∈ txs → t'.sender = a → txPid t' = some pid → t'.nonce ≤ t.nonce)
          ∧ (a ∈ pv.no_votes.addresses ↔
              ∃ t, t ∈ txs ∧ t.sender = a ∧ txPid t = some pid ∧ txVote t = some "no" ∧
                ∀ t', t' ∈ txs → t'.sender = a → txPid t' = some pid → t'.nonce ≤ t.nonce))
      ∧ (∀ pid a, (∃ t, t ∈ txs ∧ t.sender = a ∧ txPid t = some pid) →
          ∃ pv, (pid, pv) ∈ vc ∧
            (a ∈ pv.yes_votes.addresses ∨ a ∈ pv.no_votes.addresses)) := by
  obtain ⟨m, hbuild⟩ := buildLatestAux_total (sequence_transactions txs)
    (fun t ht => hm t (mem_sequence txs t ht)) []
  have hwf : LVWf m :=
    buildLatestAux_wf (sequence_transactions txs) [] m
      ⟨List.nodup_nil, fun p hp => absurd hp (List.not_mem_nil p)⟩ hbuild
  have hlook : ∀ pid a, lvlookup m pid a =
      match lastD (senderFilterSorted txs pid a) with
      | none => none
      | some t => txVote t := by
    intro pid a
    have h1 := buildLatestAux_lookup (sequence_transactions txs) [] m hbuild pid a
    rw [h1]
    exact lvchar txs pid a
  have hchar : ∀ pid a (w : String), lvlookup m pid a = some w ↔
      ∃ t, t ∈ txs ∧ t.sender = a ∧ txPid t = some pid ∧ txVote t = some w ∧
        ∀ t', t' ∈ txs → t'.sender = a → txPid t' = some pid → t'.nonce ≤ t.nonce := by
    intro pid a w
    rw [hlook pid a]
    constructor
    · intro h
      rcases hld : lastD (senderFilterSorted txs pid a) with - | tm
      · rw [hld] at h
        cases h
      · rw [hld] at h
        have htm := (sfs_mem txs pid a tm).mp (lastD_mem _ tm hld)
        refine ⟨tm, htm.1, htm.2.1, htm.2.2, h, ?_⟩
        intro t' ht' hs' hp'
        exact lastD_max _ (sfs_sorted txs pid a) tm hld t'
          ((sfs_mem txs pid a t').mpr ⟨ht', hs', hp'⟩)
    · rintro ⟨t, ht, hs, hp, hw, hmax⟩
      have htmem : t ∈ senderFilterSorted txs pid a :=
        (sfs_mem txs pid a t).mpr ⟨ht, hs, hp⟩
      obtain ⟨tm, hld⟩ := lastD_some_of_mem _ t htmem
      rw [hld]
      have htm := (sfs_mem txs pid a tm).mp (lastD_mem _ tm hld)
      have h1 : t.nonce ≤ tm.nonce := lastD_max _ (sfs_sorted txs pid a) tm hld t htmem
      have h2 : tm.nonce ≤ t.nonce := hmax tm htm.1 htm.2.1 htm.2.2
      have heq : t = tm :=
        hn t ht tm htm.1 (by rw [hs, htm.2.1]) (le_antisymm h1 h2)
      rw [← heq]
      exact hw
  refine ⟨m.map (fun pv => (pv.1, materializeVotes pv.2)), ?_, ?_, ?_⟩
  · unfold count_votes
    rw [hbuild]
    rfl
  · intro pid pv hmem a
    obtain ⟨⟨pid', votes⟩, hpm, heq⟩ := List.mem_map.mp hmem
    injection heq with e1 e2
    rw [← e1, ← e2]
    have hin : (keys votes).Nodup := hwf.2 (pid', votes) hpm
    have halk : alookup m pid' = some votes := mem_alookup m pid' votes hwf.1 hpm
    have hcell : ∀ w : String, alookup votes a = some w ↔ lvlookup m pid' a = some w := by
      intro w
      unfold lvlookup
      rw [halk]
    refine ⟨materialize_disjoint votes hin a, ?_, ?_⟩
    · rw [mem_materialize_yes]
      constructor
      · intro hmem2
        exact (hchar pid' a "yes").mp
          ((hcell "yes").mp (mem_alookup votes a "yes" hin hmem2))
      · intro hex
        exact alookup_some_mem votes a "yes"
          ((hcell "yes").mpr ((hchar pid' a "yes").mpr hex))
    · rw [mem_materialize_no]
      constructor
      · intro hmem2
        exact (hchar pid' a "no").mp
          ((hcell "no").mp (mem_alookup votes a "no" hin hmem2))
      · intro hex
        exact alookup_some_mem votes a "no"
          ((hcell "no").mpr ((hchar pid' a "no").mpr hex))
  · rintro pid a ⟨t, ht, hs, hp⟩
    have htmem : t ∈ senderFilterSorted txs pid a :=
      (sfs_mem txs pid a t).mpr ⟨ht, hs, hp⟩
    obtain ⟨tm, hld⟩ := lastD_some_of_mem _ t htmem
    have htm := (sfs_mem txs pid a tm).mp (lastD_mem _ tm hld)
    have hvm := hv tm htm.1
    have hlv : lvlookup m pid a = txVote tm := by
      rw [hlook pid a, hld]
    rcases halk : alookup m pid with - | votes
    · exfalso
      have hnone : lvlookup m pid a = none := by
        unfold lvlookup
        rw [halk]
      rcases hvm with h | h <;> rw [h] at hlv <;> rw [hnone] at hlv <;> cases hlv
    · have hpmem : (pid, votes) ∈ m := alookup_some_mem m pid votes halk
      refine ⟨materializeVotes votes, List.mem_map.mpr ⟨(pid, votes), hpmem, rfl⟩, ?_⟩
      have hav : alookup votes a = lvlookup m pid a := by
        unfold lvlookup
        rw [halk]
      rcases hvm with h | h
      · left
        rw [mem_materialize_yes]
        apply alookup_some_mem votes a "yes"
        rw [hav, hlv, h]
      · right
        rw [mem_materialize_no]
        apply alookup_some_mem votes a "no"
        rw [hav, hlv, h]

lemma valid_message_parts (msg : String) (h : is_valid_message msg = true) :
    ∃ v p, splitWs msg = [v, p] ∧ (v = "yes" ∨ v = "no") ∧ pyIsDigitStr p = true := by
  unfold is_valid_message at h
  cases hsp : splitWs msg with
  | nil => rw [hsp] at h; cases h
  | cons v rest =>
    cases rest with
    | nil => rw [hsp] at h; cases h
    | cons p rest2 =>
      cases rest2 with
      | cons x xs =>
        rw [hsp] at h
        simp at h
      | nil =>
        rw [hsp] at h
        simp only [List.length_cons, List.length_nil, List.getD_cons_zero,
          List.getD_cons_succ, Bool.and_eq_true, Bool.or_eq_true, decide_eq_true_eq] at h
        obtain ⟨-, hv, hd⟩ := h
        exact ⟨v, p, rfl, hv, hd⟩

lemma txPid_of_parts (f : FTx) (v p : String) (hsp : splitWs f.memo = [v, p]) :
    txVote f = some v ∧
      (p.toList ≠ [] → p.toList.all Char.isDigit = true → (txPid f).isSome = true) := by
  have hvp : voteParts f.memo = some (v, p) := by
    unfold voteParts
    rw [hsp]
  constructor
  · unfold txVote
    rw [hvp]
    rfl
  · intro hne hall
    unfold txPid
    rw [hvp]
    simp [pidKey, pyInt_of_digits p hne hall]

lemma filterOne_memo_valid (c : Codec) (burn : String) (s e : Int) (t : TxA) (g : FTx)
    (h : filterOne c burn s e t = some (some g)) : is_valid_message g.memo = true := by
  unfold filterOne at h
  rcases h1 : t.tx.toAddr with - | toA <;> simp only [h1] at h
  · injection h with h2
    cases h2
  · by_cases h2 : toA = burn
    · rw [if_pos h2] at h
      by_cases h3 : s ≤ t.blockDate ∧ t.blockDate ≤ e
      · rw [if_pos h3] at h
        rcases h4 : t.tx.kind with - | kind <;> simp only [h4] at h
        · cases h
        · by_cases h5 : kind = "PAYMENT"
          · rw [if_pos h5] at h
            rcases h6 : t.tx.memo with - | memo <;> simp only [h6] at h
            · cases h
            · by_cases h7 : is_valid_memo c memo = true
              · rw [if_pos h7] at h
                rcases h8 : t.tx.id with - | i <;>
                  rcases h9 : t.tx.sender with - | fr <;>
                  rcases h10 : t.tx.amount with - | am <;>
                  rcases h11 : t.tx.nonce with - | n <;>
                  simp only [h8, h9, h10, h11] at h
                all_goals cases h
                unfold is_valid_memo at h7
                exact h7
              · rw [if_neg h7] at h
                injection h with h12
                cases h12
          · rw [if_neg h5] at h
            injection h with h12
            cases h12
      · rw [if_neg h3] at h
        injection h with h12
        cases h12
    · rw [if_neg h2] at h
      injection h with h12
      cases h12

/-- Properties of `filter_transactions` output records: each decoded memo
splits into a yes/no vote token and an isdigit-accepted project token,
the vote token is recovered by `txVote`, and whenever the project token
is made of ASCII decimal digits — the parseable case; the superscript-
digit bug theorem covers the other one — the record also yields a project
tally key. On such records these discharge the hypotheses of the
latest-vote-wins theorem. -/
lemma filter_output_valid (c : Codec) (burn : String) (s e : Int) :
    ∀ txs out, filter_transactions c burn s e txs = some out →
      ∀ f ∈ out, ∃ v p, splitWs f.memo = [v, p] ∧ (v = "yes" ∨ v = "no") ∧
        pyIsDigitStr p = true ∧ txVote f = some v ∧
        (p.toList.all Char.isDigit = true → (txPid f).isSome = true) := by
  intro txs
  induction txs with
  | nil =>
    intro out hout f hf
    unfold filter_transactions at hout
    injection hout with h
    subst h
    cases hf
  | cons t ts ih =>
    intro out hout f hf
    unfold filter_transactions at hout
    rcases h1 : filterOne c burn s e t with - | o
    · rw [h1] at hout
      cases hout
    · rw [h1] at hout
      cases o with
      | none => exact ih out hout f hf
      | some g =>
        rcases h2 : filter_transactions c burn s e ts with - | rest
        · rw [h2] at hout
          cases hout
        · rw [h2] at hout
          injection hout with h3
          subst h3
          rcases List.mem_cons.mp hf with rfl | hf2
          · obtain ⟨v, p, hsp, hv, hd⟩ :=
              valid_message_parts f.memo (filterOne_memo_valid c burn s e t f h1)
            obtain ⟨hvote, hpid⟩ := txPid_of_parts f v p hsp
            obtain ⟨hne, -⟩ := (pyIsDigitStr_iff p).mp hd
            exact ⟨v, p, hsp, hv, hd, hvote, fun hall => hpid hne hall⟩
          · exact ih rest h2 f hf2

theorem latest_vote_wins_witness :
    ∃ vc, count_votes (sequence_transactions demoFlip) = some vc
      ∧ (∀ pid pv, (pid, pv) ∈ vc → ∀ a,
          ¬ (a ∈ pv.yes_votes.addresses ∧ a ∈ pv.no_votes.addresses)
          ∧ (a ∈ pv.yes_votes.addresses ↔
              ∃ t, t ∈ demoFlip ∧ t.sender = a ∧ txPid t = some pid ∧
                txVote t = some "yes" ∧
                ∀ t', t' ∈ demoFlip → t'.sender = a → txPid t' = some pid →
                  t'.nonce ≤ t.nonce)
          ∧ (a ∈ pv.no_votes.addresses ↔
              ∃ t, t ∈ demoFlip ∧ t.sender = a ∧ txPid t = some pid ∧
                txVote t = some "no" ∧
                ∀ t', t' ∈ demoFlip → t'.sender = a → txPid t' = some pid →
                  t'.nonce ≤ t.nonce))
      ∧ (∀ pid a, (∃ t, t ∈ demoFlip ∧ t.sender = a ∧ txPid t = some pid) →
          ∃ pv, (pid, pv) ∈ vc ∧
            (a ∈ pv.yes_votes.addresses ∨ a ∈ pv.no_votes.addresses)) :=
  latest_vote_wins demoFlip (by decide) (by decide) (by decide)

end GovBot
